import Mathlib

/-!
Verification of the script-to-scroll-video composition engine of
`src/videoGenerator.ts`, function `generateScrollingScriptVideo`
(lines 454-676).  The layout phase (paragraph splitting, greedy word
wrapping, complexity scoring, section bookkeeping), the duration
allocation and scroll-expression synthesis (`generateScrollExpression`,
lines 594-612), and the temp-file/encoder orchestration (lines 573-675)
are embedded as executable Lean functions over `List Char` and `ℚ`.
Floating-point numbers are modelled by exact rationals; where the
JavaScript source divides by zero (producing `NaN` or `Infinity`) the
rational model yields `0`, which is noted at the affected theorems.
The glyph-measurement collaborator `ctx.measureText` is an abstract
parameter `mw : List Char → ℚ`.
-/

namespace Wtserver

/-- Whitespace class of JavaScript regular expressions (`\s`) and of
`String.prototype.trim`: space, tab, line feed, vertical tab, form feed,
carriage return, NBSP, Ogham space, the U+2000-200A range, line/paragraph
separators, narrow NBSP, math space, ideographic space, and BOM. -/
def isWsChar (c : Char) : Bool :=
  c = ' ' || c = '\t' || c = '\n' || c = '\x0b' || c = '\x0c' || c = '\r' ||
  c = ' ' || c = ' ' || (' ' ≤ c && c ≤ ' ') ||
  c = ' ' || c = ' ' || c = ' ' || c = ' ' ||
  c = '　' || c = '﻿'

/-- Split a character list at every occurrence of a separator character,
mirroring JavaScript `string.split(sep)` for a one-character string
separator: it always returns at least one piece, and consecutive
separators yield empty pieces. -/
def splitChar (sep : Char) : List Char → List (List Char)
  | [] => [[]]
  | c :: cs =>
    if c = sep then [] :: splitChar sep cs
    else
      match splitChar sep cs with
      | [] => [[c]]
      | p :: ps => (c :: p) :: ps

/-- Helper for the `/\n\s*\n/` paragraph-break regex of source line 475.
Having seen an opening `\n`, scan the following whitespace run and return
the remainder after the last `\n` inside it (the greedy choice of the
closing `\n`, with backtracking over `\s*`), if any closing `\n` exists. -/
def findEnd : List Char → Option (List Char) → Option (List Char)
  | [], best => best
  | c :: rest, best =>
    if isWsChar c then
      if c = '\n' then findEnd rest (some rest) else findEnd rest best
    else best

/-- Fuel-indexed worker for `splitParas`; the fuel only serves structural
termination and `splitParas` always supplies enough of it. -/
def splitParasAux : ℕ → List Char → List Char → List (List Char)
  | 0, rest, acc => [acc.reverse ++ rest]
  | _ + 1, [], acc => [acc.reverse]
  | n + 1, c :: rest, acc =>
    if c = '\n' then
      match findEnd rest none with
      | some rem => acc.reverse :: splitParasAux n rem []
      | none => splitParasAux n rest (c :: acc)
    else splitParasAux n rest (c :: acc)

/-- Model of `script.split(/\n\s*\n/)` (source line 475): split the script
into paragraphs at blank-line boundaries. -/
def splitParas (s : List Char) : List (List Char) :=
  splitParasAux (s.length + 1) s []

/-- Canvas width, source line 459 (`width = 1280`). -/
def widthC : ℚ := 1280

/-- Output frame height, source line 460 (`height = 720`). -/
def heightC : ℚ := 720

/-- Horizontal padding, source line 461 (`paddingX = 80`). -/
def paddingXC : ℚ := 80

/-- Vertical padding, source line 462 (`paddingY = 60`). -/
def paddingYC : ℚ := 60

/-- Font size, source line 463 (`fontSize = 28`). -/
def fontSizeC : ℚ := 28

/-- Line spacing factor, source line 464 (`lineSpacing = 1.8`). -/
def lineSpacingC : ℚ := 9 / 5

/-- Drawable width `width - paddingX * 2` from the wrapping condition on
source line 514, constant-folded to `1280 - 160 = 1120` (the fold is
checked by `drawableWidth_eq`). -/
def drawableWidth : ℚ := 1120

/-- Line height `fontSize * lineSpacing` (source line 539), constant-folded
to `28 * 1.8 = 50.4 = 252/5` (checked by `lineHeightC_eq`). -/
def lineHeightC : ℚ := 252 / 5

/-- Initial delay in seconds, source line 590 (`initialDelay = 6`). -/
def initialDelayC : ℚ := 6

/-- Speed factor, source line 591 (`speedFactor = 0.7`). -/
def speedFactorC : ℚ := 7 / 10

/-- Total image height `wrappedLines.length * lineHeight + paddingY * 2 +
height` (source lines 540-541). -/
def totalHeightC (numLines : ℕ) : ℚ :=
  numLines * lineHeightC + paddingYC * 2 + heightC

/-- The test `line.trim() === ""` of source line 491: every character of
the line is JavaScript whitespace. -/
def isBlankLine (l : List Char) : Bool := l.all isWsChar

/-- The test-line construction `buf ? buf + " " + w : w` of source
line 513. -/
def joinWord (buf w : List Char) : List Char :=
  if buf = [] then w else buf ++ ' ' :: w

/-- Greedy word-packing loop of source lines 511-524: starting from the
line buffer `buf`, append each word if the measured test line fits within
the drawable width, otherwise flush the buffer and start a new line with
that word; afterwards the buffer is flushed (line 523).  The measurement
function `mw` models `ctx.measureText(·).width`. -/
def wrapWordsAux (mw : List Char → ℚ) (buf : List Char) :
    List (List Char) → List (List Char)
  | [] => [buf]
  | w :: ws =>
    let test := joinWord buf w
    if mw test ≤ drawableWidth then wrapWordsAux mw test ws
    else buf :: wrapWordsAux mw w ws

/-- Character class of the `hasCode` regex `[(){}\[\]<>]` (source
line 501). -/
def isCodeChar (c : Char) : Bool :=
  c = '(' || c = ')' || c = '\x7b' || c = '\x7d' || c = '[' || c = ']' ||
  c = '<' || c = '>'

/-- The `hasCode` test of source line 501. -/
def hasCode (l : List Char) : Bool := l.any isCodeChar

/-- Keyword alternatives of the `hasTech` regex (source lines 502-505). -/
def techKeywords : List (List Char) :=
  ["function".data, "class".data, "const".data, "let".data, "var".data,
   "import".data, "export".data, "async".data, "await".data]

/-- JavaScript `\w` word-character class `[A-Za-z0-9_]`, used for the `\b`
word boundaries of the `hasTech` regex. -/
def isWordChar (c : Char) : Bool := c.isAlpha || c.isDigit || c = '_'

/-- Match a literal keyword at the head of the list, returning the
remainder on success. -/
def matchKw : List Char → List Char → Option (List Char)
  | [], l => some l
  | _ :: _, [] => none
  | k :: ks, c :: cs => if c = k then matchKw ks cs else none

/-- Does some keyword of `techKeywords` occur at the head of `l`, with a
word boundary after it (end of string or a non-word character)? -/
def kwHereB (l : List Char) : Bool :=
  techKeywords.any fun kw =>
    match matchKw kw l with
    | some [] => true
    | some (r :: _) => !isWordChar r
    | none => false

/-- Scan every position of the line for a keyword occurrence with a word
boundary before it (`prev` is the preceding character, if any). -/
def hasTechFrom : Option Char → List Char → Bool
  | _, [] => false
  | prev, c :: cs =>
    ((match prev with
      | none => true
      | some p => !isWordChar p) && kwHereB (c :: cs)) || hasTechFrom (some c) cs

/-- The `hasTech` test of source lines 502-505:
`/\b(function|class|const|let|var|import|export|async|await)\b/.test(line)`. -/
def hasTech (l : List Char) : Bool := hasTechFrom none l

/-- Per-line complexity score of source lines 497-508:
`avgWordLength * (hasCode ? 1.5 : 1) * (hasTech ? 1.3 : 1)`. -/
def lineComplexity (line : List Char) : ℚ :=
  let words := splitChar ' ' line
  let avgWordLength : ℚ :=
    ((words.map List.length).sum : ℚ) / (words.length : ℚ)
  avgWordLength * (if hasCode line then 3 / 2 else 1) *
    (if hasTech line then 13 / 10 else 1)

/-- A layout section, source line 477: `{ startLine, endLine, complexity }`. -/
structure Sec where
  startLine : ℕ
  endLine : ℕ
  complexity : ℚ
deriving DecidableEq, Repr

/-- Mutable state of the layout loop of source lines 476-537: the
`wrappedLines` array, the `currentLine` counter, and the `sections`
array. -/
structure LayoutState where
  wrapped : List (List Char)
  cur : ℕ
  secs : List Sec
deriving DecidableEq, Repr

/-- The paired statements `wrappedLines.push(""); currentLine++` used on
source lines 483-484, 492-493 and 534-535. -/
def pushBlank (st : LayoutState) : LayoutState :=
  { st with wrapped := st.wrapped ++ [[]], cur := st.cur + 1 }

/-- Body of the `lines.forEach` callback, source lines 490-525: a blank
line is pushed as one empty wrapped line and contributes no complexity;
otherwise the line is word-wrapped and contributes `lineComplexity`.  The
second component is the complexity contribution of the line. -/
def processLine (mw : List Char → ℚ) (st : LayoutState) (line : List Char) :
    LayoutState × ℚ :=
  if isBlankLine line then (pushBlank st, 0)
  else
    let new := wrapWordsAux mw [] (splitChar ' ' line)
    ({ st with wrapped := st.wrapped ++ new, cur := st.cur + new.length },
     lineComplexity line)

/-- Fold of `processLine` over the lines of one paragraph, accumulating
`complexityScore` (source lines 488-525). -/
def processLines (mw : List Char → ℚ) :
    List (List Char) → LayoutState → ℚ → LayoutState × ℚ
  | [], st, cx => (st, cx)
  | line :: rest, st, cx =>
    let p := processLine mw st line
    processLines mw rest p.1 (cx + p.2)

/-- The `paragraphs.forEach` loop of source lines 480-537.  The flag
`isFirst` tracks `pIndex = 0` (leading blank pushed when `pIndex > 0`,
line 482) and `rest.isEmpty` tracks `pIndex = paragraphs.length - 1`
(trailing blank pushed when `pIndex < paragraphs.length - 1`, line 533).
Note that `sectionStart` is captured before the leading blank is pushed
(line 481). -/
def layoutGo (mw : List Char → ℚ) :
    Bool → List (List Char) → LayoutState → LayoutState
  | _, [], st => st
  | isFirst, para :: rest, st =>
    let sectionStart := st.cur
    let st1 := if isFirst then st else pushBlank st
    let p := processLines mw (splitChar '\n' para) st1 0
    let st3 : LayoutState :=
      { p.1 with secs := p.1.secs ++ [⟨sectionStart, p.1.cur - 1, p.2⟩] }
    let st4 := if rest.isEmpty then st3 else pushBlank st3
    layoutGo mw false rest st4

/-- The complete layout phase of `generateScrollingScriptVideo` (source
lines 475-537): split the script into paragraphs and run the paragraph
loop from the empty state. -/
def layoutScript (mw : List Char → ℚ) (script : List Char) : LayoutState :=
  layoutGo mw true (splitParas script) ⟨[], 0, []⟩

/-- Total complexity `sections.reduce((s, sec) => s + sec.complexity, 0)`
(source lines 585-588). -/
def totalComplexity (ss : List Sec) : ℚ := (ss.map Sec.complexity).sum

/-- Per-section scroll duration
`(sec.complexity / totalComplexity) * availableDuration` with
`availableDuration = duration - initialDelay` (source lines 592 and
599-600).  In the rational model a zero `totalComplexity` makes the
division yield `0` (JavaScript would produce `NaN`). -/
def secDurOf (ss : List Sec) (d : ℚ) (sec : Sec) : ℚ :=
  sec.complexity / totalComplexity ss * (d - initialDelayC)

/-- One branch `if(lt(t, tEnd), pStart + ((t - tStart)/den)*hgt, ...)` of
the nested-conditional crop expression built by
`generateScrollExpression` (source lines 604-606): `den` is
`secDur / speedFactor` and `hgt` is `end - start`. -/
structure Segment where
  tEnd : ℚ
  tStart : ℚ
  pStart : ℚ
  den : ℚ
  hgt : ℚ
deriving DecidableEq, Repr

/-- The `sections.forEach` accumulation of `generateScrollExpression`
(source lines 598-608): one `Segment` per section, with the running time
cursor `t` advanced by each section's duration. -/
def buildSegs (ss0 : List Sec) (d : ℚ) : List Sec → ℚ → List Segment
  | [], _ => []
  | sec :: rest, t =>
    let secDur := secDurOf ss0 d sec
    let pS := (sec.startLine : ℚ) * lineHeightC + paddingYC
    let pE := ((sec.endLine : ℚ) + 1) * lineHeightC + paddingYC
    ⟨t + secDur, t, pS, secDur / speedFactorC, pE - pS⟩ ::
      buildSegs ss0 d rest (t + secDur)

/-- Value of one segment's linear formula at time `t` (source line 604). -/
def segValAt (g : Segment) (t : ℚ) : ℚ :=
  g.pStart + ((t - g.tStart) / g.den) * g.hgt

/-- Evaluation of the nested conditionals over the segment list: the
first segment whose end time exceeds `t` supplies the value, and past all
segments the final constant `fpos` applies (source lines 606 and 610). -/
def evalSegs (fpos : ℚ) : List Segment → ℚ → ℚ
  | [], _ => fpos
  | g :: rest, t => if t < g.tEnd then segValAt g t else evalSegs fpos rest t

/-- Semantics of the full crop expression returned by
`generateScrollExpression` (source lines 594-612), the function of output
time `t` that ffmpeg evaluates per frame: pinned at `paddingY` before the
initial delay (line 595), then the per-section linear pieces, then the
final constant `totalHeight - height` (line 610; `height` there is the
outer 720 constant, the shadowing section-local `height` being scoped to
the `forEach` callback). -/
def positionAt (st : LayoutState) (d : ℚ) (t : ℚ) : ℚ :=
  if t < initialDelayC then paddingYC
  else
    evalSegs (totalHeightC st.wrapped.length - heightC)
      (buildSegs st.secs d st.secs initialDelayC) t

/-- Failure sources of the orchestration phase: the ffprobe duration
probe (line 582), the scroll-video encode (lines 615-641), and the audio
mux (lines 644-659).  The source defines no error kinds of its own; it
only propagates these rejections. -/
inductive PhaseErr
  | probe
  | encode
  | mux
deriving DecidableEq, Repr

/-- Observable outcome of one invocation of the orchestration phase:
the propagated error (if any), the temp files remaining under `/tmp`
after the invocation (`0` = image, `1` = audio, `2` = intermediate video,
`3` = final video), the number of ffmpeg invocations made, and the scroll
expression if one was built. -/
structure PipeOut where
  err : Option PhaseErr
  tmpLeft : List ℕ
  encoderCalls : ℕ
  expr : Option (List Segment)
deriving DecidableEq

/-- Orchestration of `generateScrollingScriptVideo` after the canvas
phase (source lines 573-675): write the temp image and audio (lines
579-580), probe the duration (line 582), build the scroll expression and
run the crop encode (lines 594-641), mux the audio (lines 644-659), and
on the success path only, delete the four temp files (lines 666-669); the
`catch` block (lines 672-675) logs and rethrows without deleting
anything.  `probed` is the ffprobe result (`none` = probe rejection), and
`encodeOk`/`muxOk` are the outcomes of the two external ffmpeg calls. -/
def scrollPipeline (script : List Char) (mw : List Char → ℚ)
    (probed : Option ℚ) (encodeOk muxOk : Bool) : PipeOut :=
  let st := layoutScript mw script
  let tmps : List ℕ := [0, 1]
  match probed with
  | none => ⟨some .probe, tmps, 0, none⟩
  | some d =>
    let segs := buildSegs st.secs d st.secs initialDelayC
    if encodeOk then
      let tmps2 := tmps ++ [2]
      if muxOk then
        let tmps3 := tmps2 ++ [3]
        ⟨none, (((tmps3.erase 0).erase 1).erase 2).erase 3, 2, some segs⟩
      else ⟨some .mux, tmps2, 2, some segs⟩
    else ⟨some .encode, tmps, 1, some segs⟩

/-- Concrete glyph-measurement function used for counterexamples and
witnesses: one pixel per character.  (Any measurement function exhibits
the same structural behaviour; this one keeps the arithmetic small.) -/
def mwLen (l : List Char) : ℚ := (l.length : ℚ)

/-- The two-paragraph script `"a\n\nb"` used as a concrete input. -/
def scriptAB : List Char := ['a', '\n', '\n', 'b']

/-- Does section `sec` cover wrapped-line index `i`
(`startLine ≤ i ≤ endLine`)? -/
def covers (sec : Sec) (i : ℕ) : Bool :=
  decide (sec.startLine ≤ i) && decide (i ≤ sec.endLine)

/-- Number of sections covering wrapped-line index `i`. -/
def coveredCount (ss : List Sec) (i : ℕ) : ℕ :=
  (ss.filter fun sec => covers sec i).length

/-- Is `i` the index right after the end of a non-final section (the slot
of the blank separator line pushed on source lines 534-535)? -/
def isSepB : List Sec → ℕ → Bool
  | [], _ => false
  | [_], _ => false
  | sec :: rest, i => decide (i = sec.endLine + 1) || isSepB rest i

/-- Structural invariant of the section list produced by the layout
phase, relative to the final wrapped-line list `w` and a lower bound `lo`
for the next start line: each section starts exactly at `lo`, ends no
earlier than it starts, has non-negative complexity; after a non-final
section the entry at `endLine + 1` of `w` is the blank separator line and
the next section starts at `endLine + 2`; the last section ends at the
last line of `w`. -/
def SChainW (w : List (List Char)) : ℕ → List Sec → Prop
  | _, [] => False
  | lo, [sec] =>
    sec.startLine = lo ∧ lo ≤ sec.endLine ∧ 0 ≤ sec.complexity ∧
    w.length = sec.endLine + 1
  | lo, sec :: rest =>
    sec.startLine = lo ∧ lo ≤ sec.endLine ∧ 0 ≤ sec.complexity ∧
    w[sec.endLine + 1]? = some [] ∧ SChainW w (sec.endLine + 2) rest

/-- Value of a segment's linear formula at the end of its time window. -/
def segTop (g : Segment) : ℚ := segValAt g g.tEnd

/-- Well-formedness of a segment list for the evaluator, relative to the
final constant `fpos`, the entry time `t0` and a lower bound `v0` for all
produced positions: each segment starts where the previous one ended,
has a non-negative time window, denominator and pixel height, starts no
lower than `v0`, and hands its end-of-window value to the rest; the final
constant dominates the last value. -/
def ChainOk (fpos : ℚ) : ℚ → ℚ → List Segment → Prop
  | _, v0, [] => v0 ≤ fpos
  | t0, v0, g :: rest =>
    g.tStart = t0 ∧ t0 ≤ g.tEnd ∧ 0 ≤ g.den ∧ 0 ≤ g.hgt ∧ v0 ≤ g.pStart ∧
    ChainOk fpos g.tEnd (segTop g) rest

/-- All words of the script, as produced by the splitting pipeline of the
layout phase: paragraphs, then explicit lines, then space-separated
words. -/
def scriptWords (script : List Char) : List (List Char) :=
  ((splitParas script).map fun p =>
    ((splitChar '\n' p).map fun line => splitChar ' ' line).flatten).flatten

/-! Basic facts about the splitting and wrapping helpers. -/

theorem drawableWidth_eq : drawableWidth = widthC - paddingXC * 2 := by
  norm_num [drawableWidth, widthC, paddingXC]

theorem lineHeightC_eq : lineHeightC = fontSizeC * lineSpacingC := by
  norm_num [lineHeightC, fontSizeC, lineSpacingC]

theorem splitParasAux_ne_nil (n : ℕ) (s acc : List Char) :
    splitParasAux n s acc ≠ [] := by
  induction n generalizing s acc with
  | zero => simp [splitParasAux]
  | succ n ih =>
    cases s with
    | nil => simp [splitParasAux]
    | cons c cs =>
      simp only [splitParasAux]
      split
      · cases h : findEnd cs none with
        | none => exact ih cs (c :: acc)
        | some rem => simp
      · exact ih cs (c :: acc)

theorem splitParas_ne_nil (s : List Char) : splitParas s ≠ [] :=
  splitParasAux_ne_nil _ s []

theorem splitChar_length_pos (sep : Char) (l : List Char) :
    1 ≤ (splitChar sep l).length := by
  induction l with
  | nil => simp [splitChar]
  | cons c cs ih =>
    simp only [splitChar]
    split
    · simp
    · cases h : splitChar sep cs with
      | nil => simp
      | cons p ps => simp

theorem wrapWordsAux_length_pos (mw : List Char → ℚ) (buf : List Char)
    (ws : List (List Char)) : 1 ≤ (wrapWordsAux mw buf ws).length := by
  induction ws generalizing buf with
  | nil => simp [wrapWordsAux]
  | cons w ws ih =>
    simp only [wrapWordsAux]
    split
    · exact ih _
    · simp

theorem lineComplexity_nonneg (line : List Char) : 0 ≤ lineComplexity line := by
  unfold lineComplexity
  have h1 : (0 : ℚ) ≤
      (((splitChar ' ' line).map List.length).sum : ℚ) /
        ((splitChar ' ' line).length : ℚ) :=
    div_nonneg (Nat.cast_nonneg _) (Nat.cast_nonneg _)
  have h2 : (0 : ℚ) ≤ if hasCode line then 3 / 2 else 1 := by
    split <;> norm_num
  have h3 : (0 : ℚ) ≤ if hasTech line then 13 / 10 else 1 := by
    split <;> norm_num
  exact mul_nonneg (mul_nonneg h1 h2) h3

/-! Shape of the state transformations of the layout loop. -/

theorem processLine_spec (mw : List Char → ℚ) (st : LayoutState)
    (line : List Char) :
    ∃ new : List (List Char),
      (processLine mw st line).1.wrapped = st.wrapped ++ new ∧
      (processLine mw st line).1.cur = st.cur + new.length ∧
      (processLine mw st line).1.secs = st.secs ∧
      1 ≤ new.length ∧ 0 ≤ (processLine mw st line).2 := by
  unfold processLine
  split
  · exact ⟨[[]], by simp [pushBlank], by simp [pushBlank], rfl, by simp,
      le_refl 0⟩
  · exact ⟨wrapWordsAux mw [] (splitChar ' ' line), rfl, rfl, rfl,
      wrapWordsAux_length_pos mw [] _, lineComplexity_nonneg line⟩

theorem processLines_spec (mw : List Char → ℚ) :
    ∀ (lines : List (List Char)) (st : LayoutState) (cx : ℚ),
    ∃ new : List (List Char),
      (processLines mw lines st cx).1.wrapped = st.wrapped ++ new ∧
      (processLines mw lines st cx).1.cur = st.cur + new.length ∧
      (processLines mw lines st cx).1.secs = st.secs ∧
      lines.length ≤ new.length ∧ cx ≤ (processLines mw lines st cx).2 := by
  intro lines
  induction lines with
  | nil => intro st cx; exact ⟨[], by simp [processLines], by simp [processLines],
      by simp [processLines], by simp, by simp [processLines]⟩
  | cons line rest ih =>
    intro st cx
    obtain ⟨n1, hw1, hc1, hs1, hl1, hx1⟩ := processLine_spec mw st line
    obtain ⟨n2, hw2, hc2, hs2, hl2, hx2⟩ :=
      ih (processLine mw st line).1 (cx + (processLine mw st line).2)
    refine ⟨n1 ++ n2, ?_, ?_, ?_, ?_, ?_⟩
    · simp only [processLines]
      rw [hw2, hw1, List.append_assoc]
    · simp only [processLines]
      rw [hc2, hc1, List.length_append]
      omega
    · simp only [processLines]
      rw [hs2, hs1]
    · simp only [List.length_append, List.length_cons]
      omega
    · simp only [processLines]
      calc cx ≤ cx + (processLine mw st line).2 := le_add_of_nonneg_right hx1
        _ ≤ _ := hx2

theorem layoutGo_spec (mw : List Char → ℚ) :
    ∀ (ps : List (List Char)) (b : Bool) (st : LayoutState),
    ps ≠ [] → st.cur = st.wrapped.length →
    ∃ (new : List Sec) (suf : List (List Char)),
      (layoutGo mw b ps st).secs = st.secs ++ new ∧
      (layoutGo mw b ps st).wrapped = st.wrapped ++ suf ∧
      (layoutGo mw b ps st).cur = (layoutGo mw b ps st).wrapped.length ∧
      SChainW (layoutGo mw b ps st).wrapped st.cur new := by
  intro ps
  induction ps with
  | nil => intro b st h; exact absurd rfl h
  | cons p rest ih =>
    intro b st _ hsync
    set st1 : LayoutState := if b then st else pushBlank st with hst1
    set pr := processLines mw (splitChar '\n' p) st1 0 with hpr
    set sec : Sec := ⟨st.cur, pr.1.cur - 1, pr.2⟩ with hsec
    set st3 : LayoutState := { pr.1 with secs := pr.1.secs ++ [sec] } with hst3
    have hgo : layoutGo mw b (p :: rest) st =
        layoutGo mw false rest (if rest.isEmpty then st3 else pushBlank st3) :=
      rfl
    have hst1_secs : st1.secs = st.secs := by
      cases b <;> simp [hst1, pushBlank]
    have hst1_sync : st1.cur = st1.wrapped.length := by
      cases b <;> simp [hst1, pushBlank, hsync]
    have hst1_wr : ∃ blk, st1.wrapped = st.wrapped ++ blk := by
      cases b
      · exact ⟨[[]], by simp [hst1, pushBlank]⟩
      · exact ⟨[], by simp [hst1]⟩
    have hst1_ge : st.cur ≤ st1.cur := by
      cases b <;> simp [hst1, pushBlank]
    obtain ⟨blk, hblk⟩ := hst1_wr
    obtain ⟨n2, hw2, hc2, hs2, hl2, hx2⟩ :=
      processLines_spec mw (splitChar '\n' p) st1 0
    rw [← hpr] at hw2 hc2 hs2 hx2
    have hn2 : 1 ≤ n2.length := le_trans (splitChar_length_pos '\n' p) hl2
    have hcur2 : st.cur + 1 ≤ pr.1.cur := by rw [hc2]; omega
    have hsync2 : pr.1.cur = pr.1.wrapped.length := by
      rw [hc2, hw2, List.length_append, hst1_sync]
    have hend : sec.endLine + 1 = pr.1.cur := by
      simp only [hsec]; omega
    have hst3_secs : st3.secs = st.secs ++ [sec] := by
      rw [hst3]; simp [hs2, hst1_secs]
    have hst3_wr : st3.wrapped = st.wrapped ++ (blk ++ n2) := by
      rw [hst3]; simp [hw2, hblk]
    have hst3_sync : st3.cur = st3.wrapped.length := by
      rw [hst3]; simpa using hsync2
    have hcx : (0 : ℚ) ≤ sec.complexity := hx2
    have he : sec.endLine = pr.1.cur - 1 := rfl
    have hw3 : st3.wrapped = pr.1.wrapped := rfl
    have hc3 : st3.cur = pr.1.cur := rfl
    cases rest with
    | nil =>
      refine ⟨[sec], blk ++ n2, ?_, ?_, ?_, ?_⟩
      · rw [hgo]; simpa [layoutGo] using hst3_secs
      · rw [hgo]; simpa [layoutGo] using hst3_wr
      · rw [hgo]; simpa [layoutGo] using hst3_sync
      · rw [hgo]
        simp only [List.isEmpty_nil, if_true, layoutGo]
        simp only [SChainW]
        refine ⟨trivial, by omega, hcx, ?_⟩
        rw [hw3]
        omega
    | cons q r =>
      have hne : q :: r ≠ [] := by simp
      have hst4_sync : (pushBlank st3).cur = (pushBlank st3).wrapped.length := by
        have h1 : (pushBlank st3).cur = st3.cur + 1 := rfl
        have h2 : (pushBlank st3).wrapped = st3.wrapped ++ [[]] := rfl
        rw [h1, h2, List.length_append, hst3_sync]
        simp
      obtain ⟨new', suf', ihsecs, ihwr, ihsync, ihchain⟩ :=
        ih false (pushBlank st3) hne hst4_sync
      have hres : layoutGo mw b (p :: q :: r) st =
          layoutGo mw false (q :: r) (pushBlank st3) := by
        rw [hgo]; simp
      refine ⟨sec :: new', (blk ++ n2 ++ [[]]) ++ suf', ?_, ?_, ?_, ?_⟩
      · rw [hres, ihsecs]
        have h3 : (pushBlank st3).secs = st3.secs := rfl
        rw [h3, hst3_secs]
        simp
      · rw [hres, ihwr]
        have h2 : (pushBlank st3).wrapped = st3.wrapped ++ [[]] := rfl
        rw [h2, hst3_wr]
        simp
      · rw [hres]; exact ihsync
      · rw [hres]
        have hcur4 : (pushBlank st3).cur = sec.endLine + 2 := by
          have h1 : (pushBlank st3).cur = st3.cur + 1 := rfl
          rw [h1, hc3]
          omega
        rw [hcur4] at ihchain
        have hblank :
            (layoutGo mw false (q :: r) (pushBlank st3)).wrapped[sec.endLine + 1]? =
              some [] := by
          rw [ihwr]
          have h2 : (pushBlank st3).wrapped = st3.wrapped ++ [[]] := rfl
          have hidx : sec.endLine + 1 = st3.wrapped.length := by
            rw [hw3]; omega
          have hlt : sec.endLine + 1 < (pushBlank st3).wrapped.length := by
            rw [h2, List.length_append, hidx]
            simp
          rw [List.getElem?_append_left hlt, h2, hidx]
          exact List.getElem?_concat_length _ _
        cases new' with
        | nil => simp only [SChainW] at ihchain
        | cons s2 r2 =>
          simp only [SChainW] at ihchain ⊢
          exact ⟨trivial, by omega, hcx, hblank, ihchain⟩


theorem layoutScript_schainW (mw : List Char → ℚ) (script : List Char) :
    SChainW (layoutScript mw script).wrapped 0 (layoutScript mw script).secs := by
  unfold layoutScript
  obtain ⟨new, suf, hsecs, hwr, hsync, hchain⟩ :=
    layoutGo_spec mw (splitParas script) true ⟨[], 0, []⟩
      (splitParas_ne_nil script) rfl
  simpa [hsecs] using hchain

theorem layoutScript_sync (mw : List Char → ℚ) (script : List Char) :
    (layoutScript mw script).cur = (layoutScript mw script).wrapped.length := by
  unfold layoutScript
  obtain ⟨new, suf, hsecs, hwr, hsync, hchain⟩ :=
    layoutGo_spec mw (splitParas script) true ⟨[], 0, []⟩
      (splitParas_ne_nil script) rfl
  exact hsync

/-! Consequences of the section-chain invariant. -/

theorem schainW_mem (w : List (List Char)) :
    ∀ (ss : List Sec) (lo : ℕ), SChainW w lo ss →
    ∀ sec ∈ ss, lo ≤ sec.startLine ∧ sec.startLine ≤ sec.endLine ∧
      0 ≤ sec.complexity := by
  intro ss
  induction ss with
  | nil => intro lo h; exact absurd h (by simp [SChainW])
  | cons sec rest ih =>
    intro lo h s hs
    cases rest with
    | nil =>
      simp only [SChainW] at h
      rcases List.mem_singleton.mp hs with rfl
      exact ⟨le_of_eq h.1.symm, h.1 ▸ h.2.1, h.2.2.1⟩
    | cons s2 r2 =>
      simp only [SChainW] at h
      rcases List.mem_cons.mp hs with rfl | hmem
      · exact ⟨le_of_eq h.1.symm, h.1 ▸ h.2.1, h.2.2.1⟩
      · obtain ⟨h1, h2, h3⟩ := ih (sec.endLine + 2) h.2.2.2.2 s hmem
        exact ⟨by omega, h2, h3⟩

theorem covers_iff (sec : Sec) (i : ℕ) :
    covers sec i = true ↔ sec.startLine ≤ i ∧ i ≤ sec.endLine := by
  simp [covers]

theorem coveredCount_cons (sec : Sec) (rest : List Sec) (i : ℕ) :
    coveredCount (sec :: rest) i =
      (if covers sec i then 1 else 0) + coveredCount rest i := by
  simp only [coveredCount, List.filter]
  split <;> simp [*] <;> omega

theorem schainW_below (w : List (List Char)) :
    ∀ (ss : List Sec) (lo : ℕ), SChainW w lo ss →
    ∀ i : ℕ, i < lo → coveredCount ss i = 0 ∧ isSepB ss i = false := by
  intro ss
  induction ss with
  | nil => intro lo h; exact absurd h (by simp [SChainW])
  | cons sec rest ih =>
    intro lo h i hi
    have hcov : covers sec i = false := by
      rw [Bool.eq_false_iff]
      intro hc
      have := (covers_iff sec i).mp hc
      have hlo : lo ≤ sec.startLine := by
        cases rest <;> simp only [SChainW] at h <;> omega
      omega
    cases rest with
    | nil =>
      simp only [SChainW] at h
      refine ⟨?_, by simp [isSepB]⟩
      rw [coveredCount_cons, hcov]
      simp [coveredCount]
    | cons s2 r2 =>
      simp only [SChainW] at h
      have hrest := ih (sec.endLine + 2) h.2.2.2.2 i (by omega)
      constructor
      · rw [coveredCount_cons, hcov, hrest.1]; simp
      · simp only [isSepB]
        have hne : ¬ (i = sec.endLine + 1) := by omega
        simp [hne, hrest.2]

theorem schainW_cover (w : List (List Char)) :
    ∀ (ss : List Sec) (lo : ℕ), SChainW w lo ss →
    ∀ i : ℕ, lo ≤ i → i < w.length →
    (coveredCount ss i = 1 ∧ isSepB ss i = false) ∨
    (coveredCount ss i = 0 ∧ isSepB ss i = true ∧ w[i]? = some []) := by
  intro ss
  induction ss with
  | nil => intro lo h; exact absurd h (by simp [SChainW])
  | cons sec rest ih =>
    intro lo h i hlo hiw
    cases rest with
    | nil =>
      simp only [SChainW] at h
      left
      have hcov : covers sec i = true :=
        (covers_iff sec i).mpr (by omega)
      refine ⟨?_, by simp [isSepB]⟩
      rw [coveredCount_cons, hcov]
      simp [coveredCount]
    | cons s2 r2 =>
      simp only [SChainW] at h
      obtain ⟨hstart, hse, hcx, hblank, hrest⟩ := h
      by_cases hc1 : i ≤ sec.endLine
      · left
        have hbelow := schainW_below w (s2 :: r2) (sec.endLine + 2) hrest i
          (by omega)
        have hcov : covers sec i = true :=
          (covers_iff sec i).mpr (by omega)
        constructor
        · rw [coveredCount_cons, hcov, hbelow.1]; simp
        · simp only [isSepB]
          have hne : ¬ (i = sec.endLine + 1) := by omega
          simp [hne, hbelow.2]
      · have hcov : covers sec i = false := by
          rw [Bool.eq_false_iff]
          intro hc
          have := (covers_iff sec i).mp hc
          omega
        by_cases hc2 : i = sec.endLine + 1
        · right
          have hbelow := schainW_below w (s2 :: r2) (sec.endLine + 2) hrest i
            (by omega)
          refine ⟨?_, ?_, hc2 ▸ hblank⟩
          · rw [coveredCount_cons, hcov, hbelow.1]; simp
          · simp [isSepB, hc2]
        · have hge : sec.endLine + 2 ≤ i := by omega
          have hih := ih (sec.endLine + 2) hrest i hge hiw
          have hsep_eq : isSepB (sec :: s2 :: r2) i = isSepB (s2 :: r2) i := by
            simp only [isSepB]
            have hne : ¬ (i = sec.endLine + 1) := by omega
            simp [hne]
          rcases hih with ⟨hcov2, hsep⟩ | ⟨hcov2, hsep, hval⟩
          · left
            refine ⟨?_, by rw [hsep_eq, hsep]⟩
            rw [coveredCount_cons, hcov, hcov2]
            simp
          · right
            refine ⟨?_, by rw [hsep_eq, hsep], hval⟩
            rw [coveredCount_cons, hcov, hcov2]
            simp

/-! Section counting: one section per paragraph. -/

theorem processLines_secs (mw : List Char → ℚ) :
    ∀ (lines : List (List Char)) (st : LayoutState) (cx : ℚ),
    (processLines mw lines st cx).1.secs = st.secs := by
  intro lines
  induction lines with
  | nil => intro st cx; simp [processLines]
  | cons line rest ih =>
    intro st cx
    simp only [processLines]
    rw [ih]
    unfold processLine
    split <;> simp [pushBlank]

theorem layoutGo_secs_length (mw : List Char → ℚ) :
    ∀ (ps : List (List Char)) (b : Bool) (st : LayoutState),
    (layoutGo mw b ps st).secs.length = st.secs.length + ps.length := by
  intro ps
  induction ps with
  | nil => intro b st; simp [layoutGo]
  | cons p rest ih =>
    intro b st
    simp only [layoutGo]
    rw [ih]
    have h1 : ∀ st' : LayoutState,
        (if rest.isEmpty then st' else pushBlank st').secs = st'.secs := by
      intro st'; split <;> simp [pushBlank]
    rw [h1]
    simp only [List.length_cons]
    rw [processLines_secs]
    have h2 : (if b then st else pushBlank st).secs = st.secs := by
      split <;> simp [pushBlank]
    rw [h2]
    simp only [List.length_append, List.length_cons, List.length_nil]
    omega

/-! Monotonicity of the synthesized scroll expression. -/

theorem div_le_div_nonneg_denom (a b c : ℚ) (hc : 0 ≤ c) (h : a ≤ b) :
    a / c ≤ b / c :=
  div_le_div_of_nonneg_right h hc

theorem segValAt_mono (g : Segment) (hden : 0 ≤ g.den) (hhgt : 0 ≤ g.hgt)
    (s t : ℚ) (hst : s ≤ t) : segValAt g s ≤ segValAt g t := by
  unfold segValAt
  have h1 : (s - g.tStart) / g.den ≤ (t - g.tStart) / g.den :=
    div_le_div_nonneg_denom _ _ _ hden (by linarith)
  have h2 : (s - g.tStart) / g.den * g.hgt ≤ (t - g.tStart) / g.den * g.hgt :=
    mul_le_mul_of_nonneg_right h1 hhgt
  linarith

theorem segValAt_ge_pStart (g : Segment) (hden : 0 ≤ g.den) (hhgt : 0 ≤ g.hgt)
    (t : ℚ) (ht : g.tStart ≤ t) : g.pStart ≤ segValAt g t := by
  unfold segValAt
  have h1 : 0 ≤ (t - g.tStart) / g.den :=
    div_nonneg (by linarith) hden
  have h2 : 0 ≤ (t - g.tStart) / g.den * g.hgt := mul_nonneg h1 hhgt
  linarith

theorem evalSegs_lb (fpos : ℚ) :
    ∀ (gs : List Segment) (t0 v0 : ℚ), ChainOk fpos t0 v0 gs →
    ∀ t : ℚ, t0 ≤ t → v0 ≤ evalSegs fpos gs t := by
  intro gs
  induction gs with
  | nil => intro t0 v0 h t _; simpa [evalSegs] using h
  | cons g rest ih =>
    intro t0 v0 h t ht
    obtain ⟨hts, hte, hden, hhgt, hps, hrest⟩ := h
    simp only [evalSegs]
    split
    · exact le_trans hps (segValAt_ge_pStart g hden hhgt t (hts ▸ ht))
    · rename_i hge
      push_neg at hge
      have htop : v0 ≤ segTop g := by
        unfold segTop
        exact le_trans hps (segValAt_ge_pStart g hden hhgt g.tEnd (hts ▸ hte))
      exact le_trans htop (ih g.tEnd (segTop g) hrest t hge)

theorem evalSegs_mono (fpos : ℚ) :
    ∀ (gs : List Segment) (t0 v0 : ℚ), ChainOk fpos t0 v0 gs →
    ∀ s t : ℚ, t0 ≤ s → s ≤ t → evalSegs fpos gs s ≤ evalSegs fpos gs t := by
  intro gs
  induction gs with
  | nil => intro t0 v0 _ s t _ _; simp [evalSegs]
  | cons g rest ih =>
    intro t0 v0 h s t hs hst
    obtain ⟨hts, hte, hden, hhgt, hps, hrest⟩ := h
    simp only [evalSegs]
    by_cases hs1 : s < g.tEnd
    · by_cases ht1 : t < g.tEnd
      · rw [if_pos hs1, if_pos ht1]
        exact segValAt_mono g hden hhgt s t hst
      · rw [if_pos hs1, if_neg ht1]
        push_neg at ht1
        have h1 : segValAt g s ≤ segTop g := by
          unfold segTop
          exact segValAt_mono g hden hhgt s g.tEnd (le_of_lt hs1)
        exact le_trans h1 (evalSegs_lb fpos rest g.tEnd (segTop g) hrest t ht1)
    · have ht1 : ¬ t < g.tEnd := by push_neg at hs1 ⊢; linarith
      rw [if_neg hs1, if_neg ht1]
      push_neg at hs1
      exact ih g.tEnd (segTop g) hrest s t hs1 hst

theorem secDur_div_den_le_one (dur : ℚ) (hd : 0 ≤ dur) :
    dur / (dur / speedFactorC) ≤ 1 := by
  rcases eq_or_lt_of_le hd with h | h
  · rw [← h]
    norm_num
  · have hne : dur ≠ 0 := ne_of_gt h
    have heq : dur / (dur / speedFactorC) = speedFactorC := by
      field_simp
    rw [heq]
    norm_num [speedFactorC]

theorem secDur_div_den_nonneg (dur : ℚ) (hd : 0 ≤ dur) :
    0 ≤ dur / (dur / speedFactorC) :=
  div_nonneg hd (div_nonneg hd (by norm_num [speedFactorC]))

theorem segTop_formula_le (D pS pE : ℚ) (hd : 0 ≤ D) (hpe : pS ≤ pE) :
    pS + D / (D / speedFactorC) * (pE - pS) ≤ pE := by
  have h1 := secDur_div_den_le_one D hd
  have h2 : D / (D / speedFactorC) * (pE - pS) ≤ 1 * (pE - pS) :=
    mul_le_mul_of_nonneg_right h1 (by linarith)
  linarith

theorem lineHeightC_pos : (0 : ℚ) < lineHeightC := by norm_num [lineHeightC]

theorem paddingYC_pos : (0 : ℚ) < paddingYC := by norm_num [paddingYC]

theorem ChainOk.cons {fpos t0 v0 : ℚ} {g : Segment} {rest : List Segment}
    (h1 : g.tStart = t0) (h2 : t0 ≤ g.tEnd) (h3 : 0 ≤ g.den) (h4 : 0 ≤ g.hgt)
    (h5 : v0 ≤ g.pStart) (h6 : ChainOk fpos g.tEnd (segTop g) rest) :
    ChainOk fpos t0 v0 (g :: rest) := by
  simp only [ChainOk]
  exact ⟨h1, h2, h3, h4, h5, h6⟩

theorem ChainOk.nil {fpos t0 v0 : ℚ} (h : v0 ≤ fpos) :
    ChainOk fpos t0 v0 [] := by
  simp only [ChainOk]
  exact h

theorem buildSegs_chainOk (ss0 : List Sec) (d : ℚ) (w : List (List Char)) :
    ∀ (ss : List Sec) (lo : ℕ) (t0 v0 : ℚ),
    SChainW w lo ss →
    (∀ sec ∈ ss, 0 ≤ secDurOf ss0 d sec) →
    v0 ≤ (lo : ℚ) * lineHeightC + paddingYC →
    ChainOk (totalHeightC w.length - heightC) t0 v0 (buildSegs ss0 d ss t0) := by
  intro ss
  induction ss with
  | nil => intro lo t0 v0 h; exact absurd h (by simp [SChainW])
  | cons sec rest ih =>
    intro lo t0 v0 hchain hdur hv0
    have hD : 0 ≤ secDurOf ss0 d sec := hdur sec (List.mem_cons_self sec rest)
    have hstart : sec.startLine = lo ∧ lo ≤ sec.endLine := by
      cases rest <;> simp only [SChainW] at hchain <;> exact ⟨hchain.1, hchain.2.1⟩
    have hcastse : (sec.startLine : ℚ) ≤ (sec.endLine : ℚ) := by
      exact_mod_cast le_trans (le_of_eq hstart.1) hstart.2
    have hps : v0 ≤ (sec.startLine : ℚ) * lineHeightC + paddingYC := by
      have hcast : ((sec.startLine : ℕ) : ℚ) = (lo : ℚ) := by
        exact_mod_cast hstart.1
      rw [hcast]
      exact hv0
    have hpe : (sec.startLine : ℚ) * lineHeightC + paddingYC ≤
        ((sec.endLine : ℚ) + 1) * lineHeightC + paddingYC := by
      have h1 : 0 ≤ ((sec.endLine : ℚ) + 1 - sec.startLine) * lineHeightC :=
        mul_nonneg (by linarith) (le_of_lt lineHeightC_pos)
      nlinarith
    set g : Segment := ⟨t0 + secDurOf ss0 d sec, t0,
        (sec.startLine : ℚ) * lineHeightC + paddingYC,
        secDurOf ss0 d sec / speedFactorC,
        (((sec.endLine : ℚ) + 1) * lineHeightC + paddingYC) -
          ((sec.startLine : ℚ) * lineHeightC + paddingYC)⟩ with hg
    have hb : buildSegs ss0 d (sec :: rest) t0 =
        g :: buildSegs ss0 d rest (t0 + secDurOf ss0 d sec) := rfl
    have hhgt : 0 ≤ g.hgt := by
      rw [hg]
      simp only
      linarith
    have htopval : segTop g ≤ ((sec.endLine : ℚ) + 1) * lineHeightC + paddingYC := by
      unfold segTop segValAt
      rw [hg]
      simp only
      have harg : t0 + secDurOf ss0 d sec - t0 = secDurOf ss0 d sec := by ring
      rw [harg]
      exact segTop_formula_le _ _ _ hD hpe
    rw [hb]
    refine ChainOk.cons rfl (by rw [hg]; simp only; linarith)
      (by rw [hg]; simp only; exact div_nonneg hD (by norm_num [speedFactorC]))
      hhgt hps ?_
    have hgte : g.tEnd = t0 + secDurOf ss0 d sec := rfl
    cases rest with
    | nil =>
      simp only [SChainW] at hchain
      have hlen : (w.length : ℚ) = (sec.endLine : ℚ) + 1 := by
        exact_mod_cast hchain.2.2.2
      refine ChainOk.nil ?_
      have hfin : totalHeightC w.length - heightC =
          ((sec.endLine : ℚ) + 1) * lineHeightC + paddingYC * 2 := by
        unfold totalHeightC
        rw [hlen]
        ring
      rw [hfin]
      have hpy := paddingYC_pos
      linarith [htopval]
    | cons s2 r2 =>
      simp only [SChainW] at hchain
      have hnext : segTop g ≤ ((sec.endLine + 2 : ℕ) : ℚ) * lineHeightC + paddingYC := by
        have hcast : ((sec.endLine + 2 : ℕ) : ℚ) = (sec.endLine : ℚ) + 2 := by
          push_cast
          ring
        rw [hcast]
        have hlh := lineHeightC_pos
        nlinarith [htopval]
      rw [hgte]
      exact ih (sec.endLine + 2) (t0 + secDurOf ss0 d sec) _ hchain.2.2.2.2
        (fun s hs => hdur s (List.mem_cons_of_mem sec hs)) hnext

theorem totalComplexity_nonneg (ss : List Sec)
    (h : ∀ sec ∈ ss, 0 ≤ sec.complexity) : 0 ≤ totalComplexity ss := by
  unfold totalComplexity
  apply List.sum_nonneg
  intro x hx
  obtain ⟨sec, hsec, rfl⟩ := List.mem_map.mp hx
  exact h sec hsec

theorem secDurOf_nonneg (ss : List Sec) (d : ℚ) (sec : Sec)
    (hc : 0 ≤ sec.complexity) (ht : 0 ≤ totalComplexity ss)
    (hd : 0 ≤ d - initialDelayC) : 0 ≤ secDurOf ss d sec :=
  mul_nonneg (div_nonneg hc ht) hd

theorem positionAt_mono_aux (mw : List Char → ℚ) (script : List Char) (d : ℚ)
    (hd : initialDelayC < d) (s t : ℚ) (hst : s ≤ t) :
    positionAt (layoutScript mw script) d s ≤
      positionAt (layoutScript mw script) d t := by
  have hchain := layoutScript_schainW mw script
  have hmem := schainW_mem (layoutScript mw script).wrapped
    (layoutScript mw script).secs 0 hchain
  have htot : 0 ≤ totalComplexity (layoutScript mw script).secs :=
    totalComplexity_nonneg _ (fun sec hs => (hmem sec hs).2.2)
  have hdur : ∀ sec ∈ (layoutScript mw script).secs,
      0 ≤ secDurOf (layoutScript mw script).secs d sec :=
    fun sec hs => secDurOf_nonneg _ d sec (hmem sec hs).2.2 htot (by linarith)
  have hok := buildSegs_chainOk (layoutScript mw script).secs d
    (layoutScript mw script).wrapped (layoutScript mw script).secs 0
    initialDelayC paddingYC hchain hdur (by simp)
  unfold positionAt
  by_cases hs6 : s < initialDelayC
  · rw [if_pos hs6]
    by_cases ht6 : t < initialDelayC
    · rw [if_pos ht6]
    · rw [if_neg ht6]
      push_neg at ht6
      exact evalSegs_lb _ _ _ _ hok t ht6
  · push_neg at hs6
    have ht6 : ¬ t < initialDelayC := by push_neg; linarith
    rw [if_neg (not_lt.mpr hs6), if_neg ht6]
    exact evalSegs_mono _ _ _ _ hok s t hs6 hst

/-! Duration allocation: exact conservation and the zero-complexity case. -/

theorem secDur_sum_eq (ss : List Sec) (d : ℚ) (hC : 0 < totalComplexity ss) :
    (ss.map (secDurOf ss d)).sum = d - initialDelayC := by
  have hne : totalComplexity ss ≠ 0 := ne_of_gt hC
  have h1 : ss.map (secDurOf ss d) =
      (ss.map Sec.complexity).map
        (· * ((d - initialDelayC) / totalComplexity ss)) := by
    rw [List.map_map]
    apply List.map_congr_left
    intro sec _
    simp only [Function.comp, secDurOf]
    ring
  rw [h1, List.sum_map_mul_right]
  have h2 : (List.map (fun x => x) (List.map Sec.complexity ss)).sum =
      totalComplexity ss := by
    simp only [List.map_map, totalComplexity]
    rfl
  rw [h2]
  exact mul_div_cancel₀ _ hne

/-! Evaluation of the layout on the concrete two-paragraph script. -/

theorem layoutScript_scriptAB :
    layoutScript mwLen scriptAB =
      ⟨[['a'], [], [], ['b']], 4, [⟨0, 0, 1⟩, ⟨2, 3, 1⟩]⟩ := by
  simp +decide [layoutScript, scriptAB, splitParas, splitParasAux, findEnd,
    isWsChar, layoutGo, processLines, processLine, isBlankLine, wrapWordsAux,
    joinWord, mwLen, drawableWidth, splitChar, pushBlank, lineComplexity,
    hasCode, hasTech, hasTechFrom, kwHereB, matchKw, techKeywords, isCodeChar,
    isWordChar]

theorem layoutScript_empty (mw : List Char → ℚ) :
    layoutScript mw [] = ⟨[[]], 1, [⟨0, 0, 0⟩]⟩ := by
  simp [layoutScript, splitParas, splitParasAux, layoutGo, processLines,
    processLine, isBlankLine, splitChar, pushBlank, isWsChar]

/-! Wrapping correctness: every wrapped line fits or is a single word. -/

theorem mem_scriptWords (script para line w : List Char)
    (hp : para ∈ splitParas script) (hl : line ∈ splitChar '\n' para)
    (hw : w ∈ splitChar ' ' line) : w ∈ scriptWords script := by
  unfold scriptWords
  apply List.mem_flatten.mpr
  refine ⟨((splitChar '\n' para).map fun l => splitChar ' ' l).flatten,
    List.mem_map_of_mem _ hp, ?_⟩
  apply List.mem_flatten.mpr
  exact ⟨splitChar ' ' line, List.mem_map_of_mem _ hl, hw⟩

theorem wrapWordsAux_fit (mw : List Char → ℚ) (ws0 : List (List Char)) :
    ∀ (ws : List (List Char)) (buf : List Char),
    (mw buf ≤ drawableWidth ∨ buf ∈ ws0 ∨ buf = []) →
    (∀ w ∈ ws, w ∈ ws0) →
    ∀ l ∈ wrapWordsAux mw buf ws,
      mw l ≤ drawableWidth ∨ l ∈ ws0 ∨ l = [] := by
  intro ws
  induction ws with
  | nil =>
    intro buf hbuf _ l hl
    simp only [wrapWordsAux, List.mem_singleton] at hl
    exact hl ▸ hbuf
  | cons w ws ih =>
    intro buf hbuf hws l hl
    simp only [wrapWordsAux] at hl
    by_cases hfit : mw (joinWord buf w) ≤ drawableWidth
    · rw [if_pos hfit] at hl
      exact ih (joinWord buf w) (Or.inl hfit)
        (fun x hx => hws x (List.mem_cons_of_mem w hx)) l hl
    · rw [if_neg hfit] at hl
      rcases List.mem_cons.mp hl with rfl | hl2
      · exact hbuf
      · exact ih w (Or.inr (Or.inl (hws w (List.mem_cons_self w ws))))
          (fun x hx => hws x (List.mem_cons_of_mem w hx)) l hl2

theorem processLine_fit (mw : List Char → ℚ) (ws0 : List (List Char))
    (st : LayoutState) (line : List Char)
    (hst : ∀ l ∈ st.wrapped, mw l ≤ drawableWidth ∨ l ∈ ws0 ∨ l = [])
    (hline : ∀ w ∈ splitChar ' ' line, w ∈ ws0) :
    ∀ l ∈ (processLine mw st line).1.wrapped,
      mw l ≤ drawableWidth ∨ l ∈ ws0 ∨ l = [] := by
  unfold processLine
  split
  · intro l hl
    simp only [pushBlank, List.mem_append, List.mem_singleton] at hl
    rcases hl with h | rfl
    · exact hst l h
    · exact Or.inr (Or.inr rfl)
  · intro l hl
    simp only [List.mem_append] at hl
    rcases hl with h | h
    · exact hst l h
    · exact wrapWordsAux_fit mw ws0 (splitChar ' ' line) []
        (Or.inr (Or.inr rfl)) hline l h

theorem processLines_fit (mw : List Char → ℚ) (ws0 : List (List Char)) :
    ∀ (lines : List (List Char)) (st : LayoutState) (cx : ℚ),
    (∀ l ∈ st.wrapped, mw l ≤ drawableWidth ∨ l ∈ ws0 ∨ l = []) →
    (∀ line ∈ lines, ∀ w ∈ splitChar ' ' line, w ∈ ws0) →
    ∀ l ∈ (processLines mw lines st cx).1.wrapped,
      mw l ≤ drawableWidth ∨ l ∈ ws0 ∨ l = [] := by
  intro lines
  induction lines with
  | nil => intro st cx hst _; simpa [processLines] using hst
  | cons line rest ih =>
    intro st cx hst hls
    simp only [processLines]
    exact ih (processLine mw st line).1 _
      (processLine_fit mw ws0 st line hst
        (hls line (List.mem_cons_self line rest)))
      (fun l hl => hls l (List.mem_cons_of_mem line hl))

theorem layoutGo_fit (mw : List Char → ℚ) (ws0 : List (List Char)) :
    ∀ (ps : List (List Char)) (b : Bool) (st : LayoutState),
    (∀ l ∈ st.wrapped, mw l ≤ drawableWidth ∨ l ∈ ws0 ∨ l = []) →
    (∀ para ∈ ps, ∀ line ∈ splitChar '\n' para,
      ∀ w ∈ splitChar ' ' line, w ∈ ws0) →
    ∀ l ∈ (layoutGo mw b ps st).wrapped,
      mw l ≤ drawableWidth ∨ l ∈ ws0 ∨ l = [] := by
  intro ps
  induction ps with
  | nil => intro b st hst _; simpa [layoutGo] using hst
  | cons p rest ih =>
    intro b st hst hps
    simp only [layoutGo]
    have hst1 : ∀ l ∈ (if b then st else pushBlank st).wrapped,
        mw l ≤ drawableWidth ∨ l ∈ ws0 ∨ l = [] := by
      split
      · exact hst
      · intro l hl
        simp only [pushBlank, List.mem_append, List.mem_singleton] at hl
        rcases hl with h | rfl
        · exact hst l h
        · exact Or.inr (Or.inr rfl)
    have hst2 := processLines_fit mw ws0 (splitChar '\n' p)
      (if b then st else pushBlank st) 0 hst1
      (hps p (List.mem_cons_self p rest))
    apply ih false
    · intro l hl
      split at hl
      · exact hst2 l hl
      · simp only [pushBlank, List.mem_append, List.mem_singleton] at hl
        rcases hl with h | rfl
        · exact hst2 l h
        · exact Or.inr (Or.inr rfl)
    · exact fun para hpara => hps para (List.mem_cons_of_mem p hpara)

/-! The oversized-word quirk of the packing loop. -/

theorem wrapWordsAux_oversized (mw : List Char → ℚ) (w : List Char)
    (ws : List (List Char)) (hmono : ∀ a b : List Char, mw a ≤ mw (a ++ b))
    (hw : drawableWidth < mw w) :
    ∃ l, wrapWordsAux mw [] (w :: ws) = [] :: w :: l := by
  have h1 : ¬ mw (joinWord [] w) ≤ drawableWidth := by
    simp only [joinWord, if_pos rfl]
    exact not_le.mpr hw
  simp only [wrapWordsAux]
  rw [if_neg h1]
  cases ws with
  | nil => exact ⟨[], by simp [wrapWordsAux]⟩
  | cons w2 rest =>
    have h2 : ¬ mw (joinWord w w2) ≤ drawableWidth := by
      unfold joinWord
      split
      · rename_i hw0
        rw [hw0] at hw
        have hm := hmono [] w2
        simp only [List.nil_append] at hm
        exact not_le.mpr (lt_of_lt_of_le hw hm)
      · exact not_le.mpr (lt_of_lt_of_le hw (hmono w (' ' :: w2)))
    refine ⟨wrapWordsAux mw w2 rest, ?_⟩
    simp only [wrapWordsAux]
    rw [if_neg h2]

theorem mwLen_mono (a b : List Char) : mwLen a ≤ mwLen (a ++ b) := by
  unfold mwLen
  rw [List.length_append]
  exact_mod_cast Nat.le_add_right a.length b.length

/-! Behaviour of the orchestration model. -/

/-!
Claim theorems.  Each claim of the specification is settled below; the
counterexamples are closed evaluations at explicit inputs.
-/

/-- C1, as stated, is false: `positionAt` is not continuous at section
time boundaries.  For the two-paragraph script `"a\n\nb"` and audio
duration 10, the boundary between the two section windows is at `t = 8`,
and the position climbs by more than 65 pixels between `t = 7.999` and
`t = 8` (the jump is `(1 - speedFactor) * sectionHeight + lineHeight =
65.52` pixels, while the within-section slope contributes under 0.02
pixels per millisecond). -/
theorem C1_boundary_jump_counterexample :
    positionAt (layoutScript mwLen scriptAB) 10 8 -
      positionAt (layoutScript mwLen scriptAB) 10 (7999 / 1000) > 65 := by
  rw [layoutScript_scriptAB]
  norm_num [positionAt, initialDelayC, paddingYC, totalHeightC, heightC,
    lineHeightC, buildSegs, evalSegs, segValAt, secDurOf, totalComplexity,
    speedFactorC]

/-- C1 (amended): for every script, every measurement function and every
audio duration strictly greater than the initial delay, the scroll
position `positionAt` synthesized by `generateScrollingScriptVideo` is
weakly monotonically non-decreasing over the whole timeline
`[0, audioDuration]`; continuity at the section boundaries fails (see the
counterexample). -/
theorem C1_positionAt_monotone (mw : List Char → ℚ) (script : List Char)
    (d : ℚ) (hd : initialDelayC < d) (s t : ℚ) (_h0 : 0 ≤ s) (hst : s ≤ t)
    (_htd : t ≤ d) :
    positionAt (layoutScript mw script) d s ≤
      positionAt (layoutScript mw script) d t :=
  positionAt_mono_aux mw script d hd s t hst

/-- Witness for C1 (amended) at the concrete script `"a\n\nb"`,
duration 10, and times 1 ≤ 7. -/
theorem C1_positionAt_monotone_witness :
    initialDelayC < 10 ∧ (0 : ℚ) ≤ 1 ∧ (1 : ℚ) ≤ 7 ∧ (7 : ℚ) ≤ 10 ∧
    positionAt (layoutScript mwLen scriptAB) 10 1 ≤
      positionAt (layoutScript mwLen scriptAB) 10 7 :=
  ⟨by decide, by decide, by decide, by decide,
    C1_positionAt_monotone mwLen scriptAB 10 (by decide) 1 7 (by decide)
      (by decide) (by decide)⟩

/-- C2: for every section list with positive total complexity and every
audio duration above the initial delay, the allocated per-section
durations `(sec.complexity / totalComplexity) * availableDuration` sum to
`availableDuration = audioDuration - initialDelay`; in the exact rational
model the sum is exact, hence within the 1e-6 tolerance. -/
theorem C2_duration_conservation (ss : List Sec) (d : ℚ)
    (hC : 0 < totalComplexity ss) (_hd : initialDelayC < d) :
    |(ss.map (secDurOf ss d)).sum - (d - initialDelayC)| ≤ 1 / 1000000 := by
  rw [secDur_sum_eq ss d hC]
  simp

/-- Witness for C2 at a one-section list of complexity 1 and duration 10. -/
theorem C2_duration_conservation_witness :
    0 < totalComplexity [⟨0, 0, 1⟩] ∧ initialDelayC < 10 ∧
    |(([⟨0, 0, 1⟩] : List Sec).map (secDurOf [⟨0, 0, 1⟩] 10)).sum -
        (10 - initialDelayC)| ≤ 1 / 1000000 :=
  ⟨by simp [totalComplexity], by decide,
    C2_duration_conservation [⟨0, 0, 1⟩] 10 (by simp [totalComplexity])
      (by decide)⟩

/-- C3, as stated, is false: the wrapped lines are not partitioned
exhaustively by the sections.  For the script `"a\n\nb"` the layout
produces four wrapped lines and sections `[⟨0,0⟩, ⟨2,3⟩]`: wrapped line 1
(the trailing blank pushed after the first paragraph, source lines
533-536) is covered by no section, because the next `sectionStart` is
captured only after that push. -/
theorem C3_uncovered_separator_counterexample :
    (layoutScript mwLen scriptAB).wrapped.length = 4 ∧
    coveredCount (layoutScript mwLen scriptAB).secs 1 = 0 := by
  rw [layoutScript_scriptAB]
  decide

/-- C3 (amended): for every script and measurement function, every
wrapped-line index is covered by exactly one section, except the blank
separator line after each non-final section (index `endLine + 1`), which
is covered by no section; sections never overlap. -/
theorem C3_sections_cover_except_separators (mw : List Char → ℚ)
    (script : List Char) (i : ℕ)
    (hi : i < (layoutScript mw script).wrapped.length) :
    (coveredCount (layoutScript mw script).secs i = 1 ∧
      isSepB (layoutScript mw script).secs i = false) ∨
    (coveredCount (layoutScript mw script).secs i = 0 ∧
      isSepB (layoutScript mw script).secs i = true ∧
      (layoutScript mw script).wrapped[i]? = some []) :=
  schainW_cover (layoutScript mw script).wrapped (layoutScript mw script).secs
    0 (layoutScript_schainW mw script) i (Nat.zero_le i) hi

/-- Witness for C3 (amended) at the script `"a\n\nb"` and line index 1
(the uncovered blank separator). -/
theorem C3_sections_cover_except_separators_witness :
    1 < (layoutScript mwLen scriptAB).wrapped.length ∧
    ((coveredCount (layoutScript mwLen scriptAB).secs 1 = 1 ∧
      isSepB (layoutScript mwLen scriptAB).secs 1 = false) ∨
    (coveredCount (layoutScript mwLen scriptAB).secs 1 = 0 ∧
      isSepB (layoutScript mwLen scriptAB).secs 1 = true ∧
      (layoutScript mwLen scriptAB).wrapped[1]? = some [])) :=
  ⟨by simp [layoutScript_scriptAB],
    C3_sections_cover_except_separators mwLen scriptAB 1
      (by simp [layoutScript_scriptAB])⟩

/-- C4, as stated, is false: there is no equal-share fallback for zero
total complexity.  A single section of complexity 0 is allocated
`0 / 0 * availableDuration`, which is `0` in the rational model (`NaN` in
JavaScript) - not the full `availableDuration = 4`. -/
theorem C4_zero_complexity_counterexample :
    secDurOf [⟨0, 0, 0⟩] 10 ⟨0, 0, 0⟩ = 0 ∧
    ¬ secDurOf [⟨0, 0, 0⟩] 10 ⟨0, 0, 0⟩ = 10 - initialDelayC := by
  constructor
  · norm_num [secDurOf, totalComplexity]
  · norm_num [secDurOf, totalComplexity, initialDelayC]

/-- C4 (amended): when the total complexity is zero, every section's
allocated duration is `0` in the rational model (the JavaScript source
computes `0/0 = NaN`; there is no equal-distribution branch in the
code). -/
theorem C4_zero_total_complexity_durations (ss : List Sec) (d : ℚ)
    (h : totalComplexity ss = 0) :
    ∀ sec ∈ ss, secDurOf ss d sec = 0 := by
  intro sec _
  unfold secDurOf
  rw [h, div_zero, zero_mul]

/-- Witness for C4 (amended) at a single zero-complexity section. -/
theorem C4_zero_total_complexity_durations_witness :
    totalComplexity [⟨0, 0, 0⟩] = 0 ∧
    ∀ sec ∈ ([⟨0, 0, 0⟩] : List Sec), secDurOf [⟨0, 0, 0⟩] 10 sec = 0 :=
  ⟨by simp [totalComplexity],
    C4_zero_total_complexity_durations [⟨0, 0, 0⟩] 10
      (by simp [totalComplexity])⟩

/-- C5, as stated, is false: with probed duration 5 and initial delay 6
(`availableDuration = -1 ≤ 0`) the pipeline raises no error of any kind,
builds the scroll expression anyway, and invokes the external encoder
twice. -/
theorem C5_short_audio_counterexample :
    (scrollPipeline scriptAB mwLen (some 5) true true).err = none ∧
    (scrollPipeline scriptAB mwLen (some 5) true true).encoderCalls = 2 ∧
    (scrollPipeline scriptAB mwLen (some 5) true true).expr ≠ none := by
  refine ⟨rfl, rfl, ?_⟩
  simp [scrollPipeline]

/-- C5 (amended): the source contains no `AudioTooShort` (or any other)
duration check: for every script and every probed duration, including
durations at or below the initial delay, the scroll expression is built
and at least one encoder invocation is attempted. -/
theorem C5_no_audio_too_short_check (script : List Char)
    (mw : List Char → ℚ) (d : ℚ) (e m : Bool) :
    (scrollPipeline script mw (some d) e m).expr ≠ none ∧
    1 ≤ (scrollPipeline script mw (some d) e m).encoderCalls := by
  cases e <;> cases m <;> simp [scrollPipeline]

/-- C6, as stated, is false: for the empty script the layout produces one
section (not zero), no `EmptyInput` error exists, and the pipeline
proceeds through both encoder invocations. -/
theorem C6_empty_script_counterexample :
    (layoutScript mwLen []).secs.length = 1 ∧
    (scrollPipeline [] mwLen (some 10) true true).err = none ∧
    (scrollPipeline [] mwLen (some 10) true true).encoderCalls = 2 := by
  refine ⟨?_, rfl, rfl⟩
  rw [layoutScript_empty]
  rfl

/-- C6 (amended): for every measurement function and probed duration, the
empty script yields exactly one wrapped line (the empty line) and exactly
one section `⟨0, 0, 0⟩`, and the pipeline reaches the encoder without any
fail-fast error. -/
theorem C6_empty_script_one_section (mw : List Char → ℚ) (d : ℚ) :
    layoutScript mw [] = ⟨[[]], 1, [⟨0, 0, 0⟩]⟩ ∧
    (scrollPipeline [] mw (some d) true true).err = none ∧
    (scrollPipeline [] mw (some d) true true).encoderCalls = 2 :=
  ⟨layoutScript_empty mw, rfl, rfl⟩

/-- C7: provided the measurement function gives the empty string a width
within the drawable width (as `ctx.measureText` does: width 0), every
wrapped line produced by the layout either fits within the drawable width
or is literally one of the script's space-separated words, alone on its
line (the no-hyphenation exception for oversized words). -/
theorem C7_wrapped_lines_fit_or_single_word (mw : List Char → ℚ)
    (script : List Char) (hmw : mw [] ≤ drawableWidth) :
    ∀ l ∈ (layoutScript mw script).wrapped,
      mw l ≤ drawableWidth ∨ l ∈ scriptWords script := by
  intro l hl
  have h := layoutGo_fit mw (scriptWords script) (splitParas script) true
    ⟨[], 0, []⟩ (by simp)
    (fun para hp line hline w hw => mem_scriptWords script para line w hp
      hline hw) l hl
  rcases h with h1 | h2 | h3
  · exact Or.inl h1
  · exact Or.inr h2
  · rw [h3]
    exact Or.inl hmw

/-- Witness for C7 at the one-pixel-per-character measurement and the
script `"a\n\nb"`. -/
theorem C7_wrapped_lines_fit_or_single_word_witness :
    mwLen [] ≤ drawableWidth ∧
    ∀ l ∈ (layoutScript mwLen scriptAB).wrapped,
      mwLen l ≤ drawableWidth ∨ l ∈ scriptWords scriptAB :=
  ⟨by decide, C7_wrapped_lines_fit_or_single_word mwLen scriptAB (by decide)⟩

/-- C8, as stated, is false: when the phase-2 encode fails, the error is
rethrown without any cleanup and the temp image and audio files remain on
disk. -/
theorem C8_encode_failure_leaves_tmp_counterexample :
    (scrollPipeline scriptAB mwLen (some 10) false true).err =
      some PhaseErr.encode ∧
    (scrollPipeline scriptAB mwLen (some 10) false true).tmpLeft = [0, 1] ∧
    ([0, 1] : List ℕ) ≠ [] := by
  exact ⟨rfl, rfl, by decide⟩

/-- C8 (amended): the temp files are all removed exactly on the success
path; on every failure path (probe, encode, or mux) the files written so
far are left behind. -/
theorem C8_tmp_cleanup_iff_success (script : List Char)
    (mw : List Char → ℚ) (probed : Option ℚ) (e m : Bool) :
    (scrollPipeline script mw probed e m).tmpLeft = [] ↔
      (scrollPipeline script mw probed e m).err = none := by
  cases probed with
  | none => simp [scrollPipeline]
  | some d =>
    cases e <;> cases m <;> simp [scrollPipeline]

/-- C9: for every script (including the empty one) and measurement
function, the layout produces exactly one section per paragraph, and
since splitting on blank-line boundaries always yields at least one
paragraph, at least one section. -/
theorem C9_one_section_per_paragraph (mw : List Char → ℚ)
    (script : List Char) :
    (layoutScript mw script).secs.length = (splitParas script).length ∧
    1 ≤ (layoutScript mw script).secs.length := by
  have h := layoutGo_secs_length mw (splitParas script) true ⟨[], 0, []⟩
  have hlen : (layoutScript mw script).secs.length =
      (splitParas script).length := by
    unfold layoutScript
    rw [h]
    simp
  refine ⟨hlen, ?_⟩
  rw [hlen]
  have hne := splitParas_ne_nil script
  cases hsp : splitParas script with
  | nil => exact absurd hsp hne
  | cons a l => simp

/-- C10: in the packing loop, when the buffer is empty and the first word
measured is wider than the drawable width (for any measurement that is
monotone under appending, as pixel widths are), an extra empty wrapped
line is emitted immediately before the line holding that word, and the
oversized word ends up alone at the start of its own line. -/
theorem C10_oversized_word_blank_line (mw : List Char → ℚ) (w : List Char)
    (ws : List (List Char)) (hmono : ∀ a b : List Char, mw a ≤ mw (a ++ b))
    (hw : drawableWidth < mw w) :
    ∃ l, wrapWordsAux mw [] (w :: ws) = [] :: w :: l :=
  wrapWordsAux_oversized mw w ws hmono hw

set_option maxRecDepth 8000 in
/-- Witness for C10 at the one-pixel-per-character measurement and a
1121-character word (wider than the 1120-pixel drawable width). -/
theorem C10_oversized_word_blank_line_witness :
    drawableWidth < mwLen (List.replicate 1121 'a') ∧
    ∃ l, wrapWordsAux mwLen [] [List.replicate 1121 'a'] =
      [] :: List.replicate 1121 'a' :: l :=
  ⟨by decide,
    C10_oversized_word_blank_line mwLen (List.replicate 1121 'a') []
      mwLen_mono (by decide)⟩

end Wtserver
